import Mathlib

/-!
Verification of the configuration-persistence subsystem of
`src/core/wee-config.c` (WeeChat): the two structured section codecs
(bars, keys), the scalar option `set` path, the day-change scheduler and
the reload teardown.  C strings are modelled as `List Char`.
-/

namespace WeeConfig

/-- C strings are modelled as lists of characters. -/
abbrev CStr := List Char

/-! ### Splitting on a separator character (model of `string_explode (value, ";", 0, 0, &argc)`) -/

/-- Split a string at every occurrence of the separator character `sep`.
Always returns at least one (possibly empty) field, like `string_explode`
on a non-empty input returns the fields between separators. -/
def splitSep (sep : Char) : CStr → List CStr
  | [] => [[]]
  | c :: rest =>
    let r := splitSep sep rest
    if c = sep then [] :: r
    else (c :: r.headI) :: r.tail

/-- Join fields with the separator character. -/
def joinSep (sep : Char) : List CStr → CStr
  | [] => []
  | [f] => f
  | f :: rest => f ++ sep :: joinSep sep rest

theorem splitSep_ne_nil (sep : Char) (s : CStr) : splitSep sep s ≠ [] := by
  cases s with
  | nil => simp [splitSep]
  | cons c rest =>
    simp only [splitSep]
    split
    · simp
    · simp

/-- Prepending a separator-free string to the input prepends it to the first field. -/
theorem splitSep_append_free (sep : Char) (f s : CStr) (hf : sep ∉ f) :
    splitSep sep (f ++ s) = (f ++ (splitSep sep s).headI) :: (splitSep sep s).tail := by
  induction f with
  | nil =>
    simp only [List.nil_append]
    cases h : splitSep sep s with
    | nil => exact absurd h (splitSep_ne_nil sep s)
    | cons a l => simp
  | cons c rest ih =>
    simp only [List.mem_cons, not_or] at hf
    simp only [List.cons_append, splitSep, List.append_eq]
    rw [if_neg (fun h => hf.1 h.symm), ih hf.2]
    simp

/-- Splitting after joining recovers the fields, when no field contains the separator. -/
theorem splitSep_joinSep (sep : Char) (fs : List CStr)
    (hne : fs ≠ []) (hfree : ∀ f ∈ fs, sep ∉ f) :
    splitSep sep (joinSep sep fs) = fs := by
  induction fs with
  | nil => exact absurd rfl hne
  | cons f rest ih =>
    cases rest with
    | nil =>
      have hf := hfree f (by simp)
      have h := splitSep_append_free sep f [] hf
      simpa [joinSep, splitSep] using h
    | cons g rest2 =>
      have hf := hfree f (by simp)
      have hrest : ∀ x ∈ g :: rest2, sep ∉ x := fun x hx => hfree x (by simp [hx])
      have ihr := ih (by simp) hrest
      simp only [joinSep]
      rw [show f ++ sep :: joinSep sep (g :: rest2) = f ++ [sep] ++ joinSep sep (g :: rest2) by simp]
      rw [List.append_assoc, splitSep_append_free sep f _ hf]
      simp [splitSep, ihr]

/-! ### Decimal integers: printing (model of `%d`) and parsing (model of `strtol`) -/

def digitChar (d : Nat) : Char := Char.ofNat (48 + d)

def isDigitChar (c : Char) : Bool := 48 ≤ c.toNat && c.toNat ≤ 57

def digitVal (c : Char) : Nat := c.toNat - 48

/-- Decimal digits of `n`, most significant first, prepended to `acc`. -/
def natDigitsAux (n : Nat) (acc : CStr) : CStr :=
  if n < 10 then digitChar n :: acc
  else natDigitsAux (n / 10) (digitChar (n % 10) :: acc)
termination_by n
decreasing_by exact Nat.div_lt_self (by omega) (by omega)

def natDigits (n : Nat) : CStr := natDigitsAux n []

/-- Decimal representation of an integer, as printed by `%d`. -/
def intRepr (n : Int) : CStr :=
  if n < 0 then '-' :: natDigits n.natAbs else natDigits n.natAbs

/-- `isspace` characters of the C locale. -/
def isSpaceChar (c : Char) : Bool := c.toNat = 32 || (9 ≤ c.toNat && c.toNat ≤ 13)

/-- Take the longest prefix of decimal digits, returning it with the rest. -/
def takeDigits : CStr → (CStr × CStr)
  | [] => ([], [])
  | c :: rest =>
    if isDigitChar c then
      let p := takeDigits rest
      (c :: p.1, p.2)
    else ([], c :: rest)

/-- Value of a list of decimal digits, most significant first, on top of `a`. -/
def digitsValFrom (a : Nat) (ds : CStr) : Nat :=
  ds.foldl (fun x c => 10 * x + digitVal c) a

def digitsVal (ds : CStr) : Nat := digitsValFrom 0 ds

/-- Strip an optional single leading sign, returning (negative?, rest). -/
def stripSign : CStr → (Bool × CStr)
  | [] => (false, [])
  | c :: r => if c = '-' then (true, r) else if c = '+' then (false, r) else (false, c :: r)

def LONG_MAX : Int := 2 ^ 63 - 1
def LONG_MIN : Int := -(2 ^ 63)

/-- Out-of-range values are clamped by `strtol` (which sets `errno`, not
checked by the caller). -/
def clampLong (n : Int) : Int :=
  if n > LONG_MAX then LONG_MAX else if n < LONG_MIN then LONG_MIN else n

/-- Model of `number = strtol (s, &error, 10)` combined with the caller's
acceptance test `error && (error[0] == '\0')`: `some` of the (clamped) parsed
long when the whole string is consumed, `none` otherwise.  When no digits are
consumed, `strtol` stores the original `s` in `error`, so the test passes
exactly when `s` is empty (with value 0). -/
def strtolFull (s : CStr) : Option Int :=
  if s = [] then some 0
  else
    let afterSpace := s.dropWhile (fun c => isSpaceChar c)
    let sg := stripSign afterSpace
    let p := takeDigits sg.2
    if p.1 = [] then none
    else if p.2 = [] then
      some (clampLong (if sg.1 then -(digitsVal p.1 : Int) else (digitsVal p.1 : Int)))
    else none

/-- Truncation of a C `long` to a C `int` (the assignment `size = number`). -/
def toInt32 (n : Int) : Int := (n + 2 ^ 31) % 2 ^ 32 - 2 ^ 31

/-! ### Round-trip lemmas for decimal integers -/

theorem natDigitsAux_ne_nil (n : Nat) (acc : CStr) : natDigitsAux n acc ≠ [] := by
  induction n using Nat.strong_induction_on generalizing acc with
  | _ n ih =>
    rw [natDigitsAux]
    split
    · simp
    · exact ih (n / 10) (Nat.div_lt_self (by omega) (by omega)) _

theorem natDigitsAux_digits (n : Nat) (acc : CStr)
    (hacc : ∀ c ∈ acc, isDigitChar c = true) :
    ∀ c ∈ natDigitsAux n acc, isDigitChar c = true := by
  induction n using Nat.strong_induction_on generalizing acc with
  | _ n ih =>
    rw [natDigitsAux]
    have hd : ∀ d, d < 10 → isDigitChar (digitChar d) = true := by
      intro d hdlt
      interval_cases d <;> decide
    split
    · intro c hc
      rcases List.mem_cons.mp hc with h | h
      · exact h ▸ hd n (by omega)
      · exact hacc c h
    · refine ih (n / 10) (Nat.div_lt_self (by omega) (by omega)) _ ?_
      intro c hc
      rcases List.mem_cons.mp hc with h | h
      · exact h ▸ hd (n % 10) (Nat.mod_lt _ (by omega))
      · exact hacc c h

/-- Auxiliary power-of-ten: `pow10 n` is 10 to the number of digits of `n`. -/
def pow10 (n : Nat) : Nat :=
  if n < 10 then 10 else 10 * pow10 (n / 10)
termination_by n
decreasing_by exact Nat.div_lt_self (by omega) (by omega)

theorem digitVal_digitChar (d : Nat) (h : d < 10) : digitVal (digitChar d) = d := by
  interval_cases d <;> decide

theorem digitsValFrom_natDigitsAux (n : Nat) (a : Nat) (rest : CStr) :
    digitsValFrom a (natDigitsAux n rest) = digitsValFrom (a * pow10 n + n) rest := by
  induction n using Nat.strong_induction_on generalizing a rest with
  | _ n ih =>
    rw [natDigitsAux, pow10]
    split
    · rename_i h
      simp only [digitsValFrom, List.foldl_cons]
      rw [digitVal_digitChar n h]
      congr 1
      omega
    · rename_i h
      rw [ih (n / 10) (Nat.div_lt_self (by omega) (by omega))]
      simp only [digitsValFrom, List.foldl_cons]
      rw [digitVal_digitChar (n % 10) (Nat.mod_lt _ (by omega))]
      congr 1
      have := Nat.div_add_mod n 10
      ring_nf
      omega

theorem digitsVal_natDigits (n : Nat) : digitsVal (natDigits n) = n := by
  have := digitsValFrom_natDigitsAux n 0 []
  simpa [digitsVal, natDigits, digitsValFrom] using this

theorem takeDigits_append (ds rest : CStr)
    (hds : ∀ c ∈ ds, isDigitChar c = true)
    (hrest : rest = [] ∨ ∃ c r, rest = c :: r ∧ isDigitChar c = false) :
    takeDigits (ds ++ rest) = (ds, rest) := by
  induction ds with
  | nil =>
    rcases hrest with h | ⟨c, r, hr, hc⟩
    · simp [h, takeDigits]
    · simp [hr, takeDigits, hc]
  | cons c cs ih =>
    have hc := hds c (by simp)
    simp only [List.cons_append, takeDigits, hc, if_true, List.append_eq]
    rw [ih (fun x hx => hds x (by simp [hx]))]

theorem isDigitChar_facts (c : Char) (h : isDigitChar c = true) :
    c ≠ ';' ∧ c ≠ '-' ∧ c ≠ '+' ∧ isSpaceChar c = false := by
  simp only [isDigitChar, Bool.and_eq_true, decide_eq_true_eq] at h
  refine ⟨fun he => ?_, fun he => ?_, fun he => ?_, ?_⟩
  · subst he; exact absurd h (by decide)
  · subst he; exact absurd h (by decide)
  · subst he; exact absurd h (by decide)
  · simp only [isSpaceChar]
    have hx : ¬ (c.toNat = 32) := by omega
    have hy : ¬ (c.toNat ≤ 13) := by omega
    simp [hx, hy]

theorem natDigits_cons (n : Nat) :
    ∃ c cs, natDigits n = c :: cs ∧ isDigitChar c = true ∧ ∀ x ∈ cs, isDigitChar x = true := by
  have hne := natDigitsAux_ne_nil n ([] : CStr)
  have hall := natDigitsAux_digits n [] (by simp)
  cases h : natDigits n with
  | nil => exact absurd h hne
  | cons c cs =>
    rw [natDigits] at h
    refine ⟨c, cs, rfl, ?_, ?_⟩
    · exact hall c (by rw [h]; exact List.mem_cons_self c cs)
    · intro x hx
      exact hall x (by rw [h]; exact List.mem_cons_of_mem c hx)

/-- `strtol` fully parses the `%d`-printed form of any integer in `long` range. -/
theorem strtolFull_intRepr (n : Int) (h1 : LONG_MIN ≤ n) (h2 : n ≤ LONG_MAX) :
    strtolFull (intRepr n) = some n := by
  obtain ⟨c, cs, hnd, hc, hcs⟩ := natDigits_cons n.natAbs
  have hfacts := isDigitChar_facts c hc
  have htake : takeDigits (natDigits n.natAbs) = (natDigits n.natAbs, []) := by
    have := takeDigits_append (natDigits n.natAbs) []
      (by intro x hx
          rw [hnd] at hx
          rcases List.mem_cons.mp hx with h | h
          · exact h ▸ hc
          · exact hcs x h)
      (Or.inl rfl)
    simpa using this
  have hval : digitsVal (natDigits n.natAbs) = n.natAbs := digitsVal_natDigits _
  have hne : natDigits n.natAbs ≠ [] := natDigitsAux_ne_nil _ _
  simp only [LONG_MIN, LONG_MAX] at h1 h2
  by_cases hneg : n < 0
  · simp only [intRepr, if_pos hneg]
    have hdrop : List.dropWhile (fun c => isSpaceChar c) ('-' :: natDigits n.natAbs)
        = '-' :: natDigits n.natAbs := by
      rw [List.dropWhile_cons]
      simp [show isSpaceChar '-' = false from by decide]
    have hsign : stripSign ('-' :: natDigits n.natAbs) = (true, natDigits n.natAbs) := by
      simp [stripSign]
    simp only [strtolFull, List.cons_ne_nil, if_false, hdrop, hsign, htake, hval,
      if_neg hne, reduceCtorEq]
    simp only [if_true, Option.some.injEq]
    have habs : -((n.natAbs : Int)) = n := by omega
    rw [habs]
    simp only [clampLong, LONG_MAX, LONG_MIN]
    rw [if_neg (by omega), if_neg (by omega)]
  · simp only [intRepr, if_neg hneg]
    have hdrop : List.dropWhile (fun c => isSpaceChar c) (natDigits n.natAbs)
        = natDigits n.natAbs := by
      rw [hnd, List.dropWhile_cons]
      simp [hfacts.2.2.2]
    have hsign : stripSign (natDigits n.natAbs) = (false, natDigits n.natAbs) := by
      rw [hnd]
      simp [stripSign, hfacts.2.1, hfacts.2.2.1]
    simp only [strtolFull, if_neg hne, hdrop, hsign, htake, hval]
    simp only [if_true, Bool.false_eq_true, if_false, Option.some.injEq]
    have habs : ((n.natAbs : Int)) = n := by omega
    rw [habs]
    simp only [clampLong, LONG_MAX, LONG_MIN]
    rw [if_neg (by omega), if_neg (by omega)]

/-- The printed form of an integer contains no semicolon. -/
theorem intRepr_no_semi (n : Int) : ';' ∉ intRepr n := by
  intro hmem
  have hall := natDigitsAux_digits n.natAbs [] (by simp)
  simp only [intRepr] at hmem
  split at hmem
  · rcases List.mem_cons.mp hmem with h | h
    · exact absurd h.symm (by decide)
    · exact absurd rfl (isDigitChar_facts ';' (hall ';' h)).1
  · exact absurd rfl (isDigitChar_facts ';' (hall ';' hmem)).1

theorem toInt32_eq_self (n : Int) (h1 : -(2 ^ 31) ≤ n) (h2 : n < 2 ^ 31) :
    toInt32 n = n := by
  simp only [toInt32]
  omega

theorem toInt32_range (n : Int) : -(2 ^ 31) ≤ toInt32 n ∧ toInt32 n < 2 ^ 31 := by
  simp only [toInt32]
  omega

/-- Every field produced by splitting is free of the separator. -/
theorem splitSep_fields_free (sep : Char) (s : CStr) :
    ∀ f ∈ splitSep sep s, sep ∉ f := by
  induction s with
  | nil => simp [splitSep]
  | cons c rest ih =>
    simp only [splitSep]
    split
    · intro f hf
      rcases List.mem_cons.mp hf with h | h
      · simp [h]
      · exact ih f h
    · rename_i hc
      intro f hf
      rcases List.mem_cons.mp hf with h | h
      · subst h
        intro hmem
        rcases List.mem_cons.mp hmem with h | h
        · exact hc (h ▸ rfl)
        · have hhead : (splitSep sep rest).headI ∈ splitSep sep rest := by
            cases hs : splitSep sep rest with
            | nil => exact absurd hs (splitSep_ne_nil sep rest)
            | cons a l => simp
          exact ih _ hhead h
      · have : f ∈ splitSep sep rest := List.tail_subset _ h
        exact ih f this

/-! ### Bars section codec -/

/-- A `BarDefinition` as created by `gui_bar_new`: the bar type and position
are kept as the strings read from and written to the configuration file
(`gui_bar_type_str[type]`, `gui_bar_position_str[position]`). -/
structure BarDef where
  name : CStr
  btype : CStr
  position : CStr
  size : Int
  separator : Bool
  items : CStr
deriving DecidableEq

/-- Modelled from the spec: `gui_bar_new` (gui-bar.c, outside the excerpt)
creates a new `BarDefinition` from the decoded fields; the section writer
enumerates live bars in creation order, so creation appends to the list. -/
def gui_bar_new (bars : List BarDef) (name btype position : CStr) (size : Int)
    (separator : Bool) (items : CStr) : List BarDef :=
  bars ++ [⟨name, btype, position, size, separator, items⟩]

/-- `config_weechat_read_bar`: reader callback of the "bars" section.
`option_name` is `none` for a NULL name; a NULL value behaves like an empty
one (both fail the `value && value[0]` test).  `string_explode` (wee-string.c,
outside the excerpt) is modelled from the spec as splitting the value into
its semicolon-separated fields.  The separator flag is `argv[3][0] == '0' ? 0 : 1`
(an empty field has `'\0'` at index 0, hence flag 1). -/
def config_weechat_read_bar (bars : List BarDef) (option_name : Option CStr)
    (value : CStr) : List BarDef :=
  match option_name with
  | none => bars
  | some name =>
    if value = [] then bars
    else
      let argv := splitSep ';' value
      if argv.length = 5 then
        match strtolFull (argv.getD 2 []) with
        | some number =>
          gui_bar_new bars name (argv.getD 0 []) (argv.getD 1 []) (toInt32 number)
            (!((argv.getD 3 []).headD (Char.ofNat 0) = '0')) (argv.getD 4 [])
        | none => bars
      else bars

/-- The value emitted by `config_weechat_write_bars` for one bar:
`"%s;%s;%d;%d;%s"` with the bar's type, position, size, separator and items. -/
def barLine (b : BarDef) : CStr :=
  joinSep ';' [b.btype, b.position, intRepr b.size,
               (if b.separator then ['1'] else ['0']), b.items]

/-- `config_weechat_write_bars`: one `(key, value)` line per live bar, in
creation order, keyed by the bar's name.  (The section-name header line
written first is part of the file syntax handled by the engine, not a record
line.) -/
def config_weechat_write_bars (bars : List BarDef) : List (CStr × CStr) :=
  bars.map (fun b => (b.name, barLine b))

/-- Feeding a sequence of `(key, value)` lines through the bars reader. -/
def readBarLines (bars : List BarDef) (lines : List (CStr × CStr)) : List BarDef :=
  lines.foldl (fun bs l => config_weechat_read_bar bs (some l.1) l.2) bars

/-- Well-formedness of a reader-created bar record: no field holds a
semicolon and the size fits in a C `int`. -/
def BarDef.WF (b : BarDef) : Prop :=
  ';' ∉ b.btype ∧ ';' ∉ b.position ∧ ';' ∉ b.items ∧
    -(2 ^ 31) ≤ b.size ∧ b.size < 2 ^ 31

/-- A well-formed bars line in the sense of the round-trip claim: exactly
five semicolon-separated fields with a numeric (strtol-accepted) size. -/
def WellFormedBarValue (value : CStr) : Prop :=
  (splitSep ';' value).length = 5 ∧ strtolFull ((splitSep ';' value).getD 2 []) ≠ none

theorem getD_mem_of_lt {α : Type} (l : List α) (k : Nat) (d : α) (h : k < l.length) :
    l.getD k d ∈ l := by
  rw [List.getD_eq_getElem l d h]
  exact List.getElem_mem h

/-- Reading the writer's line for a well-formed bar record appends exactly
that record. -/
theorem readBar_barLine (bars : List BarDef) (b : BarDef) (hwf : b.WF) :
    config_weechat_read_bar bars (some b.name) (barLine b) = bars ++ [b] := by
  obtain ⟨h1, h2, h3, h4, h5⟩ := hwf
  have hsep : ';' ∉ (if b.separator then ['1'] else ['0']) := by
    split <;> simp
  have hsplit : splitSep ';' (barLine b)
      = [b.btype, b.position, intRepr b.size,
         (if b.separator then ['1'] else ['0']), b.items] := by
    refine splitSep_joinSep ';' _ (by simp) ?_
    intro f hf
    simp only [List.mem_cons, List.not_mem_nil, or_false] at hf
    rcases hf with h | h | h | h | h <;> subst h
    · exact h1
    · exact h2
    · exact intRepr_no_semi b.size
    · exact hsep
    · exact h3
  have hlen : barLine b ≠ [] := by
    intro he
    have := hsplit
    rw [he] at this
    simp [splitSep] at this
  have hnum : strtolFull (intRepr b.size) = some b.size := by
    refine strtolFull_intRepr b.size ?_ ?_
    · simp only [LONG_MIN]; omega
    · simp only [LONG_MAX]; omega
  cases hb : b.separator with
  | false =>
    simp [config_weechat_read_bar, if_neg hlen, hsplit, hnum, gui_bar_new,
      toInt32_eq_self b.size h4 h5, List.getD, hb]
    cases b
    simp_all
  | true =>
    simp [config_weechat_read_bar, if_neg hlen, hsplit, hnum, gui_bar_new,
      toInt32_eq_self b.size h4 h5, List.getD, hb]
    cases b
    simp_all

/-- The bars reader only ever appends well-formed records. -/
theorem readBar_preserves_WF (bars : List BarDef) (name : Option CStr) (value : CStr)
    (h : ∀ x ∈ bars, x.WF) :
    ∀ x ∈ config_weechat_read_bar bars name value, x.WF := by
  intro x hx
  cases name with
  | none => exact h x hx
  | some nm =>
    simp only [config_weechat_read_bar] at hx
    split at hx
    · exact h x hx
    · split at hx
      · rename_i hlen
        split at hx
        · rename_i number hnum
          simp only [gui_bar_new] at hx
          rcases List.mem_append.mp hx with hm | hm
          · exact h x hm
          · simp only [List.mem_singleton] at hm
            subst hm
            have hfree := splitSep_fields_free ';' value
            refine ⟨?_, ?_, ?_, (toInt32_range number).1, (toInt32_range number).2⟩
            · exact hfree _ (getD_mem_of_lt _ 0 [] (by omega))
            · exact hfree _ (getD_mem_of_lt _ 1 [] (by omega))
            · exact hfree _ (getD_mem_of_lt _ 4 [] (by omega))
        · exact h x hx
      · exact h x hx

theorem readBarLines_preserves_WF (lines : List (CStr × CStr)) (bars : List BarDef)
    (h : ∀ x ∈ bars, x.WF) :
    ∀ x ∈ readBarLines bars lines, x.WF := by
  induction lines generalizing bars with
  | nil => exact h
  | cons l rest ih =>
    exact ih _ (readBar_preserves_WF bars (some l.1) l.2 h)

/-- Re-reading the writer's output for well-formed records appends exactly
those records, in order. -/
theorem readBarLines_write (recs bars0 : List BarDef) (h : ∀ b ∈ recs, b.WF) :
    readBarLines bars0 (config_weechat_write_bars recs) = bars0 ++ recs := by
  induction recs generalizing bars0 with
  | nil => simp [readBarLines, config_weechat_write_bars]
  | cons b rest ih =>
    simp only [config_weechat_write_bars, List.map_cons, readBarLines, List.foldl_cons]
    rw [show (List.foldl (fun bs l => config_weechat_read_bar bs (some l.1) l.2)
      (config_weechat_read_bar bars0 (some b.name) (barLine b)) (rest.map
        (fun b => (b.name, barLine b)))) = readBarLines
      (config_weechat_read_bar bars0 (some b.name) (barLine b))
      (config_weechat_write_bars rest) from rfl]
    rw [readBar_barLine bars0 b (h b (by simp))]
    rw [ih _ (fun x hx => h x (List.mem_cons_of_mem _ hx))]
    simp

/-! ### Keys section codec -/

/-- A key binding (`t_gui_key`): after a bind, either `function` holds a
resolved internal handler (with the optional trailing argument string in
`args`), or `command` holds the whole value as a literal command string. -/
structure KeyBinding where
  key : CStr
  function : Option Nat
  args : Option CStr
  command : CStr
deriving DecidableEq

/-- The registry of internal command identifiers: pairs of identifier and
handler.  Modelled from the spec: "an explicit registry mapping a stable
symbolic command identifier to its handler"; handlers are abstract tokens
standing for the C function pointers. -/
abbrev FuncTable := List (CStr × Nat)

/-- Modelled from the spec: lookup of a handler by identifier, as done inside
`gui_keyboard_bind` when deciding whether a value names an internal command. -/
def functionSearchByName (table : FuncTable) (name : CStr) : Option Nat :=
  (table.find? (fun e => decide (e.1 = name))).map Prod.snd

/-- `gui_keyboard_function_search_by_ptr`: reverse lookup of an identifier by
handler, used by the keys writer.  Modelled from the spec's command registry. -/
def functionSearchByPtr (table : FuncTable) (f : Nat) : Option CStr :=
  (table.find? (fun e => decide (e.2 = f))).map Prod.fst

/-- Split a value at its first space: the command word and the optional
trailing argument string (`none` when there is no space at all). -/
def splitFirstSpace : CStr → (CStr × Option CStr)
  | [] => ([], none)
  | c :: r =>
    if c = ' ' then ([], some r)
    else
      let p := splitFirstSpace r
      (c :: p.1, p.2)

/-- Modelled from the spec: the binding record built by `gui_keyboard_bind`
for a value: if the first word is a known internal command identifier, the
handler and the optional trailing argument string are stored; otherwise the
entire value verbatim as a literal command. -/
def mkBinding (table : FuncTable) (key value : CStr) : KeyBinding :=
  let p := splitFirstSpace value
  match functionSearchByName table p.1 with
  | some f => ⟨key, some f, p.2, []⟩
  | none => ⟨key, none, none, value⟩

/-- Modelled from the spec: `gui_keyboard_bind` (gui-keyboard.c, outside the
excerpt) binds `key` to `value`, overwriting any prior binding for the same
sequence; with no prior binding the new record is appended (creation order). -/
def gui_keyboard_bind (table : FuncTable) (keys : List KeyBinding)
    (key value : CStr) : List KeyBinding :=
  if keys.any (fun k => decide (k.key = key)) then
    keys.map (fun k => if k.key = key then mkBinding table key value else k)
  else
    keys ++ [mkBinding table key value]

/-- Modelled from the spec: `gui_keyboard_unbind` removes any binding for the
sequence (a no-op when none exists). -/
def gui_keyboard_unbind (keys : List KeyBinding) (key : CStr) : List KeyBinding :=
  keys.filter (fun k => decide (k.key ≠ key))

/-- Modelled from the spec: `gui_keyboard_free_all` (gui-keyboard.c, outside
the excerpt) releases every key binding. -/
def gui_keyboard_free_all (_keys : List KeyBinding) : List KeyBinding := []

/-- `config_weechat_read_key`: reader callback of the "keys" section: a NULL
option name is ignored; a non-empty value (re)binds the key, an empty (or
NULL) value unbinds it. -/
def config_weechat_read_key (table : FuncTable) (keys : List KeyBinding)
    (option_name : Option CStr) (value : CStr) : List KeyBinding :=
  match option_name with
  | none => keys
  | some name =>
    if value ≠ [] then gui_keyboard_bind table keys name value
    else gui_keyboard_unbind keys name

/-- The `(key, value)` line emitted by `config_weechat_write_keys` for one
binding, without the surrounding quotes that belong to the file syntax (the
config-file engine strips them when reading the line back): for a binding
whose handler resolves to an identifier, `"<identifier> <args>"` (args part
omitted when absent); for a literal binding, the command verbatim; `none` — no
line at all — for a binding whose handler has no resolvable identifier.
`gui_keyboard_get_expanded_name` is a display-layer collaborator, modelled
from the spec as the identity on the raw key sequence. -/
def keyLine (table : FuncTable) (k : KeyBinding) : Option (CStr × CStr) :=
  match k.function with
  | some f =>
    match functionSearchByPtr table f with
    | some fname =>
      some (k.key, fname ++ (match k.args with | some a => ' ' :: a | none => []))
    | none => none
  | none => some (k.key, k.command)

/-- `config_weechat_write_keys`: the loop over `gui_keys`, emitting one line
per binding in order and skipping bindings with an unresolvable handler. -/
def config_weechat_write_keys (table : FuncTable) :
    List KeyBinding → List (CStr × CStr)
  | [] => []
  | k :: rest =>
    match keyLine table k with
    | some l => l :: config_weechat_write_keys table rest
    | none => config_weechat_write_keys table rest

/-- Feeding a sequence of `(key, value)` lines through the keys reader. -/
def readKeyLines (table : FuncTable) (keys : List KeyBinding)
    (lines : List (CStr × CStr)) : List KeyBinding :=
  lines.foldl (fun ks l => config_weechat_read_key table ks (some l.1) l.2) keys

/-- A sane command registry: identifiers are non-empty, contain no space
(they must be re-parseable as the first word of a value) and are distinct. -/
def GoodTable (table : FuncTable) : Prop :=
  (∀ e ∈ table, e.1 ≠ [] ∧ ' ' ∉ e.1) ∧ (table.map Prod.fst).Nodup

/-! ### Keys round-trip lemmas -/

theorem splitFirstSpace_no_space (s : CStr) (h : ' ' ∉ s) :
    splitFirstSpace s = (s, none) := by
  induction s with
  | nil => rfl
  | cons c r ih =>
    simp only [List.mem_cons, not_or] at h
    simp only [splitFirstSpace, if_neg (Ne.symm h.1), ih h.2]

theorem splitFirstSpace_word_args (w a : CStr) (h : ' ' ∉ w) :
    splitFirstSpace (w ++ ' ' :: a) = (w, some a) := by
  induction w with
  | nil => simp [splitFirstSpace]
  | cons c r ih =>
    simp only [List.mem_cons, not_or] at h
    simp only [List.cons_append, splitFirstSpace, List.append_eq,
      if_neg (Ne.symm h.1), ih h.2]

theorem searchByName_mem (table : FuncTable) (w : CStr) (f : Nat)
    (h : functionSearchByName table w = some f) :
    ∃ e ∈ table, e.2 = f := by
  simp only [functionSearchByName, Option.map_eq_some'] at h
  obtain ⟨e, he, hef⟩ := h
  exact ⟨e, List.mem_of_find?_eq_some he, hef⟩

/-- With a sane registry, an identifier found for a handler re-resolves to
the same handler. -/
theorem searchByPtr_roundtrip (table : FuncTable) (hg : GoodTable table) (f : Nat)
    (hmem : ∃ e ∈ table, e.2 = f) :
    ∃ n, functionSearchByPtr table f = some n ∧ n ≠ [] ∧ ' ' ∉ n ∧
      functionSearchByName table n = some f := by
  obtain ⟨e, he, hef⟩ := hmem
  have hex : (table.find? (fun x => decide (x.2 = f))).isSome := by
    rw [List.find?_isSome]
    exact ⟨e, he, by simp [hef]⟩
  obtain ⟨e', he'⟩ := Option.isSome_iff_exists.mp hex
  have he'mem := List.mem_of_find?_eq_some he'
  have he'f : e'.2 = f := by simpa using List.find?_some he'
  refine ⟨e'.1, by simp [functionSearchByPtr, he'], (hg.1 e' he'mem).1,
    (hg.1 e' he'mem).2, ?_⟩
  have hex2 : (table.find? (fun x => decide (x.1 = e'.1))).isSome := by
    rw [List.find?_isSome]
    exact ⟨e', he'mem, by simp⟩
  obtain ⟨e'', he''⟩ := Option.isSome_iff_exists.mp hex2
  have he''mem := List.mem_of_find?_eq_some he''
  have he''n : e''.1 = e'.1 := by simpa using List.find?_some he''
  have heq : e'' = e' := List.inj_on_of_nodup_map hg.2 he''mem he'mem he''n
  rw [functionSearchByName, he'', heq]
  simp [he'f]

/-- Well-formedness of a reader-created key binding: a function binding holds
a handler from the registry and no literal command; a literal binding holds a
non-empty command whose first word is not a registered identifier, and no
argument string. -/
def KeyWF (table : FuncTable) (k : KeyBinding) : Prop :=
  match k.function with
  | some f => k.command = [] ∧ ∃ e ∈ table, e.2 = f
  | none => k.command ≠ [] ∧ k.args = none ∧
      functionSearchByName table (splitFirstSpace k.command).1 = none

/-- The writer emits a line for every well-formed binding, and re-binding
from that line reconstructs the binding exactly. -/
theorem keyLine_roundtrip (table : FuncTable) (hg : GoodTable table)
    (k : KeyBinding) (hwf : KeyWF table k) :
    ∃ v, keyLine table k = some (k.key, v) ∧ v ≠ [] ∧
      mkBinding table k.key v = k := by
  cases hf : k.function with
  | some f =>
    rw [KeyWF, hf] at hwf
    obtain ⟨hcmd, hmem⟩ := hwf
    obtain ⟨n, hptr, hn, hnsp, hname⟩ := searchByPtr_roundtrip table hg f hmem
    cases ha : k.args with
    | none =>
      refine ⟨n, ?_, hn, ?_⟩
      · simp [keyLine, hf, hptr, ha]
      · rw [mkBinding, splitFirstSpace_no_space n hnsp]
        simp only [hname]
        cases k
        simp_all
    | some a =>
      refine ⟨n ++ ' ' :: a, ?_, by simp [hn], ?_⟩
      · simp [keyLine, hf, hptr, ha]
      · rw [mkBinding, splitFirstSpace_word_args n a hnsp]
        simp only [hname]
        cases k
        simp_all
  | none =>
    rw [KeyWF, hf] at hwf
    obtain ⟨hcmd, hargs, hsearch⟩ := hwf
    refine ⟨k.command, by simp [keyLine, hf], hcmd, ?_⟩
    rw [mkBinding]
    simp only [hsearch]
    cases k
    simp_all

/-- Invariant of the keys state: every binding is well formed and the key
sequences are pairwise distinct. -/
def KeysWF (table : FuncTable) (keys : List KeyBinding) : Prop :=
  (∀ k ∈ keys, KeyWF table k) ∧ (keys.map KeyBinding.key).Nodup

theorem mkBinding_key (table : FuncTable) (key value : CStr) :
    (mkBinding table key value).key = key := by
  rw [mkBinding]
  split <;> rfl

theorem mkBinding_WF (table : FuncTable) (key value : CStr) (hv : value ≠ []) :
    KeyWF table (mkBinding table key value) := by
  rw [mkBinding]
  cases hs : functionSearchByName table (splitFirstSpace value).1 with
  | some f =>
    simp only [hs, KeyWF]
    exact ⟨trivial, searchByName_mem table _ f hs⟩
  | none =>
    simp only [hs, KeyWF]
    exact ⟨hv, trivial, by simp [hs]⟩

theorem bind_fresh (table : FuncTable) (keys : List KeyBinding) (key value : CStr)
    (h : ∀ k ∈ keys, k.key ≠ key) :
    gui_keyboard_bind table keys key value = keys ++ [mkBinding table key value] := by
  rw [gui_keyboard_bind, if_neg]
  simp only [List.any_eq_true, decide_eq_true_eq, not_exists, not_and]
  exact fun k hk => h k hk

/-- Re-reading the keys writer's output of a well-formed state appends
exactly those bindings, in order. -/
theorem readKeyLines_write (table : FuncTable) (hg : GoodTable table)
    (recs acc : List KeyBinding)
    (hwf : ∀ k ∈ recs, KeyWF table k)
    (hnd : (recs.map KeyBinding.key).Nodup)
    (hdisj : ∀ k ∈ recs, ∀ a ∈ acc, a.key ≠ k.key) :
    readKeyLines table acc (config_weechat_write_keys table recs) = acc ++ recs := by
  induction recs generalizing acc with
  | nil => simp [readKeyLines, config_weechat_write_keys]
  | cons k rest ih =>
    obtain ⟨v, hline, hv, hmk⟩ := keyLine_roundtrip table hg k (hwf k (by simp))
    simp only [config_weechat_write_keys, hline]
    simp only [readKeyLines, List.foldl_cons]
    rw [show (config_weechat_read_key table acc (some (k.key, v).1) (k.key, v).2)
      = config_weechat_read_key table acc (some k.key) v from rfl]
    rw [config_weechat_read_key, if_pos hv]
    rw [bind_fresh table acc k.key v (fun a ha => hdisj k (by simp) a ha), hmk]
    have hnd' : (rest.map KeyBinding.key).Nodup := (List.nodup_cons.mp hnd).2
    have hknotin : k.key ∉ rest.map KeyBinding.key := (List.nodup_cons.mp hnd).1
    rw [show (List.foldl (fun ks l => config_weechat_read_key table ks (some l.1) l.2)
      (acc ++ [k]) (config_weechat_write_keys table rest))
      = readKeyLines table (acc ++ [k]) (config_weechat_write_keys table rest) from rfl]
    rw [ih _ (fun x hx => hwf x (List.mem_cons_of_mem _ hx)) hnd' ?_]
    · simp
    · intro x hx a ha
      rcases List.mem_append.mp ha with hm | hm
      · exact hdisj x (List.mem_cons_of_mem _ hx) a hm
      · simp only [List.mem_singleton] at hm
        subst hm
        intro he
        exact hknotin (he ▸ List.mem_map_of_mem KeyBinding.key hx)

/-- The keys reader preserves the state invariant. -/
theorem readKey_preserves_WF (table : FuncTable) (keys : List KeyBinding)
    (name : Option CStr) (value : CStr) (h : KeysWF table keys) :
    KeysWF table (config_weechat_read_key table keys name value) := by
  obtain ⟨hwf, hnd⟩ := h
  cases name with
  | none => exact ⟨hwf, hnd⟩
  | some nm =>
    rw [config_weechat_read_key]
    split
    · rename_i hv
      rw [gui_keyboard_bind]
      split
      · constructor
        · intro k hk
          rcases List.mem_map.mp hk with ⟨x, hx, hxk⟩
          subst hxk
          split
          · exact mkBinding_WF table nm value hv
          · exact hwf x hx
        · have : (keys.map (fun k => if k.key = nm then mkBinding table nm value else k)).map
              KeyBinding.key = keys.map KeyBinding.key := by
            rw [List.map_map]
            refine List.map_congr_left ?_
            intro x _
            simp only [Function.comp_apply]
            split
            · rename_i hxk
              rw [mkBinding_key, hxk]
            · rfl
          rw [this]
          exact hnd
      · rename_i hany
        constructor
        · intro k hk
          rcases List.mem_append.mp hk with hm | hm
          · exact hwf k hm
          · simp only [List.mem_singleton] at hm
            subst hm
            exact mkBinding_WF table nm value hv
        · rw [List.map_append]
          simp only [List.map_cons, List.map_nil, mkBinding_key]
          rw [List.nodup_append]
          refine ⟨hnd, List.nodup_singleton _, ?_⟩
          intro a ha hb
          simp only [List.mem_singleton] at hb
          subst hb
          rcases List.mem_map.mp ha with ⟨x, hx, hxk⟩
          simp only [List.any_eq_true, decide_eq_true_eq, not_exists, not_and] at hany
          exact hany x hx hxk
    · rw [gui_keyboard_unbind]
      constructor
      · intro k hk
        exact hwf k (List.mem_of_mem_filter hk)
      · exact List.Nodup.sublist (List.Sublist.map KeyBinding.key (List.filter_sublist keys)) hnd

theorem readKeyLines_preserves_WF (table : FuncTable) (lines : List (CStr × CStr))
    (keys : List KeyBinding) (h : KeysWF table keys) :
    KeysWF table (readKeyLines table keys lines) := by
  induction lines generalizing keys with
  | nil => exact h
  | cons l rest ih =>
    exact ih _ (readKey_preserves_WF table keys (some l.1) l.2 h)

/-- Lookup of the live binding for a key sequence. -/
def keyLookup (keys : List KeyBinding) (key : CStr) : Option KeyBinding :=
  keys.find? (fun k => decide (k.key = key))

theorem unbind_lookup (keys : List KeyBinding) (key : CStr) :
    keyLookup (gui_keyboard_unbind keys key) key = none := by
  rw [keyLookup, List.find?_eq_none]
  intro x hx
  have := List.of_mem_filter hx
  simp only [decide_eq_true_eq] at this ⊢
  exact this

theorem unbind_noop (keys : List KeyBinding) (key : CStr)
    (h : keyLookup keys key = none) :
    gui_keyboard_unbind keys key = keys := by
  rw [keyLookup, List.find?_eq_none] at h
  rw [gui_keyboard_unbind]
  refine List.filter_eq_self.mpr ?_
  intro x hx
  have := h x hx
  simp only [decide_eq_true_eq] at this ⊢
  exact this

theorem bind_lookup (table : FuncTable) (keys : List KeyBinding) (key value : CStr) :
    keyLookup (gui_keyboard_bind table keys key value)
      key = some (mkBinding table key value) := by
  rw [gui_keyboard_bind]
  split
  · rename_i hany
    induction keys with
    | nil => simp at hany
    | cons k rest ih =>
      simp only [List.map_cons]
      by_cases hk : k.key = key
      · rw [keyLookup, if_pos hk, List.find?_cons_of_pos]
        simp [mkBinding_key]
      · rw [keyLookup, if_neg hk, List.find?_cons_of_neg _ (by simp [hk])]
        simp only [List.any_cons, Bool.or_eq_true, decide_eq_true_eq] at hany
        rcases hany with h | h
        · exact absurd h hk
        · exact ih (by simp [h])
  · rw [keyLookup, List.find?_append]
    have h1 : keys.find? (fun k => decide (k.key = key)) = none := by
      rename_i hany
      rw [List.find?_eq_none]
      intro x hx
      simp only [List.any_eq_true, decide_eq_true_eq, not_exists, not_and] at hany
      simp only [decide_eq_true_eq]
      exact hany x hx
    rw [h1]
    simp [mkBinding_key]

/-- The keys-writer loop emits exactly the per-binding lines. -/
theorem write_keys_eq_filterMap (table : FuncTable) (ks : List KeyBinding) :
    config_weechat_write_keys table ks = ks.filterMap (keyLine table) := by
  induction ks with
  | nil => rfl
  | cons k rest ih =>
    rw [config_weechat_write_keys, List.filterMap_cons]
    cases keyLine table k with
    | none => exact ih
    | some l => rw [ih]

/-- Every line the keys writer emits is keyed by some live binding's key. -/
theorem write_keys_line_keys (table : FuncTable) (ks : List KeyBinding) :
    ∀ l ∈ config_weechat_write_keys table ks, ∃ k ∈ ks, l.1 = k.key := by
  intro l hl
  rw [write_keys_eq_filterMap] at hl
  rcases List.mem_filterMap.mp hl with ⟨k, hk, hkl⟩
  refine ⟨k, hk, ?_⟩
  rcases hf : k.function with _ | f
  · simp only [keyLine, hf, Option.some.injEq] at hkl
    rw [← hkl]
  · rcases hp : functionSearchByPtr table f with _ | n
    · simp only [keyLine, hf, hp] at hkl
      exact absurd hkl (by simp)
    · simp only [keyLine, hf, hp, Option.some.injEq] at hkl
      rw [← hkl]

/-! ### Day-change scheduler -/

/-- State of the day-change scheduler: the `config_day_change_timer` handle
(NULL modelled as `none`), a counter supplying fresh timer handles, and the
timers currently armed at the timer collaborator (handle and interval in
milliseconds). -/
structure SchedState where
  timer : Option Nat
  nextId : Nat
  armed : List (Nat × Nat)
deriving DecidableEq

/-- Modelled from the spec: `hook_timer` (wee-hook.c, outside the excerpt)
arms a new recurring timer with the given interval and returns its handle. -/
def hook_timer (s : SchedState) (intervalMs : Nat) : Nat × SchedState :=
  (s.nextId,
   { s with nextId := s.nextId + 1, armed := s.armed ++ [(s.nextId, intervalMs)] })

/-- Modelled from the spec: `unhook` cancels and releases an armed timer. -/
def unhook (s : SchedState) (id : Nat) : SchedState :=
  { s with armed := s.armed.filter (fun t => decide (t.1 ≠ id)) }

/-- `config_change_day_change`: change callback of the `look_day_change`
boolean option.  When the option is on and no timer is armed, a recurring
24-hour timer (`24 * 3600 * 1000` ms) is hooked and its handle stored; when
the option is off and a timer is armed, it is unhooked and the handle
cleared; otherwise nothing happens. -/
def config_change_day_change (dayChange : Bool) (s : SchedState) : SchedState :=
  if dayChange then
    match s.timer with
    | none =>
      let p := hook_timer s (24 * 3600 * 1000)
      { p.2 with timer := some p.1 }
    | some _ => s
  else
    match s.timer with
    | some id => { unhook s id with timer := none }
    | none => s

/-- Scheduler invariant: the timers armed at the collaborator are exactly the
one referenced by the `config_day_change_timer` handle (none when NULL). -/
def SchedInv (s : SchedState) : Prop :=
  s.armed.map Prod.fst = s.timer.toList

theorem dayChange_step_inv (b : Bool) (s : SchedState) (h : SchedInv s) :
    SchedInv (config_change_day_change b s) := by
  rw [SchedInv] at h
  cases b with
  | true =>
    cases ht : s.timer with
    | none =>
      rw [ht] at h
      simp only [Option.toList_none, List.map_eq_nil_iff] at h
      simp [config_change_day_change, ht, SchedInv, hook_timer, h]
    | some id =>
      simp only [config_change_day_change, ht, if_true]
      rw [SchedInv, h, ht]
  | false =>
    cases ht : s.timer with
    | none =>
      simp only [config_change_day_change, ht, Bool.false_eq_true, if_false]
      rw [SchedInv, h, ht]
    | some id =>
      rw [ht] at h
      simp only [config_change_day_change, ht, Bool.false_eq_true, if_false]
      simp only [SchedInv, unhook, Option.toList_none]
      have hfil : s.armed.filter (fun t => decide (t.1 ≠ id)) = [] := by
        rw [List.filter_eq_nil_iff]
        intro t ht'
        have hmem : t.1 ∈ s.armed.map Prod.fst := List.mem_map_of_mem Prod.fst ht'
        rw [h] at hmem
        simp only [Option.toList_some, List.mem_singleton] at hmem
        simp [hmem]
      rw [hfil]
      rfl

theorem dayChange_fold_inv (bs : List Bool) (s : SchedState) (h : SchedInv s) :
    SchedInv (bs.foldl (fun st b => config_change_day_change b st) s) := by
  induction bs generalizing s with
  | nil => exact h
  | cons b rest ih => exact ih _ (dayChange_step_inv b s h)

/-! ### Scalar options and the change notifier -/

inductive SetResult
  | ok
  | invalidValue
deriving DecidableEq

/-- Modelled from the spec (§4.1/§4.4): the scalar `set` path of the
config-file engine (wee-config-file.c, outside the excerpt): validate the raw
string; on success commit the value and invoke the option's change callback
exactly once; on failure keep the prior value and invoke nothing.  The result
carries the stored value, the outcome, and the number of callback
invocations. -/
def config_file_option_set {V : Type} (validate : CStr → Option V) (current : V)
    (raw : CStr) : V × SetResult × Nat :=
  match validate raw with
  | some v => (v, SetResult.ok, 1)
  | none => (current, SetResult.invalidValue, 0)

/-- Modelled from the spec (§4.2): parsing of a base-10 signed integer; a
string that is not entirely an optional sign followed by digits is rejected. -/
def parseIntSpec (raw : CStr) : Option Int :=
  let sg := stripSign raw
  let p := takeDigits sg.2
  if p.1 = [] ∨ p.2 ≠ [] then none
  else some (if sg.1 then -(digitsVal p.1 : Int) else (digitsVal p.1 : Int))

/-- Modelled from the spec (§4.2): Integer validation: the parsed value must
lie within the declared inclusive range. -/
def validateInteger (vmin vmax : Int) (raw : CStr) : Option Int :=
  match parseIntSpec raw with
  | none => none
  | some v => if vmin ≤ v ∧ v ≤ vmax then some v else none

def INT_MAX : Int := 2 ^ 31 - 1

/-- An integer option: declared range and current value. -/
structure IntOption where
  vmin : Int
  vmax : Int
  value : Int
deriving DecidableEq

/-- `config_look_scroll_amount`: declared "integer" with `NULL, 1, INT_MAX,
"3"` in `config_weechat_init` — range [1, INT_MAX], default 3. -/
def config_look_scroll_amount : IntOption := ⟨1, INT_MAX, 3⟩

/-- `set` on an integer option: validation against the declared range, then
the generic commit-and-notify path. -/
def setIntegerOption (opt : IntOption) (raw : CStr) : IntOption × SetResult × Nat :=
  let r := config_file_option_set (validateInteger opt.vmin opt.vmax) opt.value raw
  ({ opt with value := r.1 }, r.2.1, r.2.2)

/-- Modelled from the spec (§4.2): Boolean validation accepts
case-insensitive "on"/"off". -/
def validateBoolean (raw : CStr) : Option Bool :=
  let l := raw.map Char.toLower
  if l = "on".toList then some true
  else if l = "off".toList then some false
  else none

/-! ### Day-change timer callback and the GUI collaborators -/

/-- `GUI_BUFFER_TYPE_FORMATED` versus the other buffer types. -/
inductive BufferType
  | formated
  | free
deriving DecidableEq

structure GuiBuffer where
  id : Nat
  btype : BufferType
  lines : List CStr
deriving DecidableEq

/-- GUI state touched by the timer callback: the global `gui_add_hotlist`
flag, the hotlist (as the list of accumulated buffer ids), and the open
buffers. -/
structure GuiState where
  addHotlist : Bool
  hotlist : List Nat
  buffers : List GuiBuffer
deriving DecidableEq

/-- Modelled from the spec: `gui_chat_printf` (gui-chat.c, outside the
excerpt): appends the message as a new line of the buffer, accumulating the
buffer into the hotlist unless accumulation is disabled via
`gui_add_hotlist`. -/
def gui_chat_printf (addHotlist : Bool) (hotlist : List Nat) (b : GuiBuffer)
    (line : CStr) : GuiBuffer × List Nat :=
  ({ b with lines := b.lines ++ [line] },
   if addHotlist then hotlist ++ [b.id] else hotlist)

/-- The loop of `config_day_change_timer_cb` over `gui_buffers`: print the
notice to each buffer whose type is `GUI_BUFFER_TYPE_FORMATED`. -/
def dayChangeLoop (addHotlist : Bool) (line : CStr) :
    List GuiBuffer → List Nat → List GuiBuffer × List Nat
  | [], hl => ([], hl)
  | b :: rest, hl =>
    if b.btype = BufferType.formated then
      let pr := gui_chat_printf addHotlist hl b line
      let p := dayChangeLoop addHotlist line rest pr.2
      (pr.1 :: p.1, p.2)
    else
      let p := dayChangeLoop addHotlist line rest hl
      (b :: p.1, p.2)

/-- The notice line `_("\t\tDay changed to %s")` for a given date text. -/
def dayChangedLine (t : CStr) : CStr := ("\t\tDay changed to ").toList ++ t

/-- `config_day_change_timer_cb`: formats the current local time with the
`look_day_change_time_format` option value, disables hotlist accumulation
(`gui_add_hotlist = 0`), prints the notice to every formatted buffer, and
re-enables accumulation (`gui_add_hotlist = 1`) before returning.
`strftime` and `string_iconv_to_internal` are external collaborators passed
as functions; `iconv` returns `none` when conversion fails, in which case the
unconverted text is printed. -/
def config_day_change_timer_cb (fmt : CStr) (strftime : CStr → Nat → CStr)
    (iconv : CStr → Option CStr) (now : Nat) (s : GuiState) : GuiState :=
  let text := strftime fmt now
  let text2 := iconv text
  let line := dayChangedLine (text2.getD text)
  let s1 : GuiState := { s with addHotlist := false }
  let p := dayChangeLoop s1.addHotlist line s1.buffers s1.hotlist
  { addHotlist := true, hotlist := p.2, buffers := p.1 }

/-- `config_look_day_change_time_format`: the independently configured time
format for the notice, default `"%a, %d %b %Y"` (a plain string option with
no callback). -/
def config_look_day_change_time_format_default : CStr := ("%a, %d %b %Y").toList

theorem dayChangeLoop_buffers (addHotlist : Bool) (line : CStr)
    (bufs : List GuiBuffer) (hl : List Nat) :
    (dayChangeLoop addHotlist line bufs hl).1
      = bufs.map (fun b =>
          if b.btype = BufferType.formated
          then { b with lines := b.lines ++ [line] } else b) := by
  induction bufs generalizing hl with
  | nil => rfl
  | cons b rest ih =>
    rw [dayChangeLoop]
    split
    · rename_i hb
      simp only [List.map_cons, if_pos hb, gui_chat_printf]
      rw [ih]
    · rename_i hb
      simp only [List.map_cons, if_neg hb]
      rw [ih]

theorem dayChangeLoop_hotlist_disabled (line : CStr)
    (bufs : List GuiBuffer) (hl : List Nat) :
    (dayChangeLoop false line bufs hl).2 = hl := by
  induction bufs generalizing hl with
  | nil => rfl
  | cons b rest ih =>
    rw [dayChangeLoop]
    split
    · simp only [gui_chat_printf, Bool.false_eq_true, if_false]
      rw [ih]
    · rw [ih]

/-! ### Reload -/

/-- The structured-section state owned by the two codecs. -/
structure ConfigState where
  keys : List KeyBinding
  bars : List BarDef
deriving DecidableEq

/-- The teardown phase of `config_weechat_reload` — everything it does before
`config_file_reload` re-reads the backing file: `gui_keyboard_free_all ()`
("remove all keys"), and nothing else. -/
def config_weechat_reload_teardown (s : ConfigState) : ConfigState :=
  { s with keys := gui_keyboard_free_all s.keys }

/-- A concrete bar record for counterexamples. -/
def sampleBar : BarDef :=
  ⟨("mybar").toList, ("root").toList, ("top").toList, 1, true, ("[time]").toList⟩

/-- A concrete command registry for witnesses. -/
def sampleTable : FuncTable :=
  [(("buffer_next").toList, 1), (("buffer_prev").toList, 2)]

/-- A binding whose function pointer has no name in the registry. -/
def unresolvableFunction (table : FuncTable) (k : KeyBinding) : Prop :=
  ∃ f, k.function = some f ∧ functionSearchByPtr table f = none

/-! ### Claim theorems -/

/-- C1: invoking `config_change_day_change` any number of times preserves the
invariant that at most one timer is armed; enabling while armed and disabling
while unarmed are no-ops; enabling from the unarmed state arms exactly one
24-hour timer and stores its handle; disabling from the armed state cancels
exactly that timer and clears the handle. -/
theorem day_change_toggle_idempotent (s : SchedState) (h : SchedInv s) :
    (∀ bs : List Bool,
      SchedInv (bs.foldl (fun st b => config_change_day_change b st) s) ∧
      (bs.foldl (fun st b => config_change_day_change b st) s).armed.length ≤ 1) ∧
    (s.timer.isSome → config_change_day_change true s = s) ∧
    (s.timer = none → config_change_day_change false s = s) ∧
    (s.timer = none → (config_change_day_change true s).timer = some s.nextId ∧
      (config_change_day_change true s).armed = [(s.nextId, 24 * 3600 * 1000)]) ∧
    (∀ id, s.timer = some id → (config_change_day_change false s).timer = none ∧
      (config_change_day_change false s).armed = []) := by
  have hlen : ∀ t : SchedState, SchedInv t → t.armed.length ≤ 1 := by
    intro t ht
    have : (t.armed.map Prod.fst).length = t.timer.toList.length := by rw [ht]
    rw [List.length_map] at this
    rw [this]
    cases t.timer <;> simp
  refine ⟨?_, ?_, ?_, ?_, ?_⟩
  · intro bs
    have hinv := dayChange_fold_inv bs s h
    exact ⟨hinv, hlen _ hinv⟩
  · intro hs
    obtain ⟨id, ht⟩ := Option.isSome_iff_exists.mp hs
    simp [config_change_day_change, ht]
  · intro ht
    simp [config_change_day_change, ht]
  · intro ht
    rw [SchedInv, ht] at h
    simp only [Option.toList_none, List.map_eq_nil_iff] at h
    constructor
    · simp [config_change_day_change, ht, hook_timer]
    · simp [config_change_day_change, ht, hook_timer, h]
  · intro id ht
    rw [SchedInv, ht] at h
    constructor
    · simp [config_change_day_change, ht]
    · simp only [config_change_day_change, ht, Bool.false_eq_true, if_false]
      simp only [unhook]
      rw [List.filter_eq_nil_iff]
      intro t ht'
      have hmem : t.1 ∈ s.armed.map Prod.fst := List.mem_map_of_mem Prod.fst ht'
      rw [h] at hmem
      simp only [Option.toList_some, List.mem_singleton] at hmem
      simp [hmem]

theorem day_change_toggle_idempotent_witness :
    SchedInv ⟨none, 0, []⟩ ∧
    (config_change_day_change true ⟨none, 0, []⟩).timer = some 0 ∧
    (config_change_day_change true ⟨none, 0, []⟩).armed = [(0, 24 * 3600 * 1000)] := by
  refine ⟨by rfl, ?_⟩
  exact (day_change_toggle_idempotent ⟨none, 0, []⟩ (by rfl)).2.2.2.1 rfl

/-- C2 counterexample: after the teardown that begins a reload (the phase of
`config_weechat_reload` before `config_file_reload` re-reads the file), an
existing `BarDefinition` is still present — only key bindings are released —
so the claim that every BarDefinition is released at that point is false. -/
theorem reload_teardown_keeps_bars_counterexample :
    (config_weechat_reload_teardown ⟨[], [sampleBar]⟩).keys = [] ∧
    (config_weechat_reload_teardown ⟨[], [sampleBar]⟩).bars = [sampleBar] ∧
    [sampleBar] ≠ ([] : List BarDef) := by
  refine ⟨rfl, rfl, by simp⟩

/-- C2 amended: when reload begins, every KeyBinding is released
(`gui_keyboard_free_all`), but BarDefinitions are not: the purely additive
re-read starts from empty key-binding state while existing bar records
remain. -/
theorem reload_teardown_amended (s : ConfigState) :
    (config_weechat_reload_teardown s).keys = [] ∧
    (config_weechat_reload_teardown s).bars = s.bars :=
  ⟨rfl, rfl⟩

/-- C3: for any sequence of well-formed Bars lines, writing the records the
reader produced and re-reading them reproduces the same record set, in
creation order; each record is emitted as the single line
`<type>;<position>;<size>;<separator 0/1>;<items>` keyed by the record's
name.  The same round-trip holds for the Keys section (for any sane command
registry). -/
theorem bars_keys_writer_reader_roundtrip (table : FuncTable) (hg : GoodTable table)
    (lines : List (CStr × CStr)) (_hwf : ∀ l ∈ lines, WellFormedBarValue l.2) :
    readBarLines [] (config_weechat_write_bars (readBarLines [] lines))
      = readBarLines [] lines ∧
    config_weechat_write_bars (readBarLines [] lines)
      = (readBarLines [] lines).map (fun b => (b.name, barLine b)) ∧
    ∀ klines : List (CStr × CStr),
      readKeyLines table [] (config_weechat_write_keys table
        (readKeyLines table [] klines)) = readKeyLines table [] klines := by
  refine ⟨?_, rfl, ?_⟩
  · have hWF := readBarLines_preserves_WF lines [] (by simp)
    have := readBarLines_write (readBarLines [] lines) [] hWF
    simpa using this
  · intro klines
    have hKWF := readKeyLines_preserves_WF table klines [] ⟨by simp, by simp⟩
    have := readKeyLines_write table hg (readKeyLines table [] klines) []
      hKWF.1 hKWF.2 (by simp)
    simpa using this

theorem bars_keys_writer_reader_roundtrip_witness :
    GoodTable sampleTable ∧
    readBarLines [] (config_weechat_write_bars (readBarLines []
        [(("mybar").toList, ("root;top;1;1;[time]").toList)]))
      = readBarLines [] [(("mybar").toList, ("root;top;1;1;[time]").toList)] := by
  refine ⟨⟨by decide, by decide⟩, ?_⟩
  exact (bars_keys_writer_reader_roundtrip sampleTable ⟨by decide, by decide⟩
    [(("mybar").toList, ("root;top;1;1;[time]").toList)]
    (by intro l hl
        simp only [List.mem_singleton] at hl
        subst hl
        exact ⟨by decide, by decide⟩)).1

/-- C4: `set` on an Integer option with a non-numeric string or a parsed
value outside the declared inclusive range leaves the stored value unchanged,
reports InvalidValue and fires no callback; `look_scroll_amount` is such an
option, with range [1, INT_MAX] and default 3. -/
theorem integer_set_out_of_range_rejected (opt : IntOption) (raw : CStr)
    (h : parseIntSpec raw = none ∨
      ∃ v, parseIntSpec raw = some v ∧ (v < opt.vmin ∨ opt.vmax < v)) :
    setIntegerOption opt raw = (opt, SetResult.invalidValue, 0) ∧
    config_look_scroll_amount = ⟨1, INT_MAX, 3⟩ := by
  refine ⟨?_, rfl⟩
  rcases h with h | ⟨v, hv, hr⟩
  · simp [setIntegerOption, config_file_option_set, validateInteger, h]
  · have hval : validateInteger opt.vmin opt.vmax raw = none := by
      simp only [validateInteger, hv]
      rw [if_neg (by omega)]
    simp [setIntegerOption, config_file_option_set, hval]

theorem integer_set_out_of_range_rejected_witness :
    (parseIntSpec (("0").toList) = some 0 ∧
      (0 : Int) < config_look_scroll_amount.vmin) ∧
    setIntegerOption config_look_scroll_amount (("0").toList)
      = (config_look_scroll_amount, SetResult.invalidValue, 0) := by
  refine ⟨⟨by decide, by decide⟩, ?_⟩
  exact (integer_set_out_of_range_rejected config_look_scroll_amount (("0").toList)
    (Or.inr ⟨0, by decide, Or.inl (by decide)⟩)).1

/-- C5: the Keys reader with a non-null option name: an empty value removes
any binding for the sequence (no-op when none exists) and a subsequent writer
pass emits no line for that sequence; a non-empty value binds the sequence to
that value, overwriting any prior binding. -/
theorem keys_reader_empty_removes_nonempty_binds (table : FuncTable)
    (keys : List KeyBinding) (seq : CStr) :
    config_weechat_read_key table keys (some seq) [] = gui_keyboard_unbind keys seq ∧
    keyLookup (config_weechat_read_key table keys (some seq) []) seq = none ∧
    (keyLookup keys seq = none →
      config_weechat_read_key table keys (some seq) [] = keys) ∧
    (∀ l ∈ config_weechat_write_keys table
        (config_weechat_read_key table keys (some seq) []), l.1 ≠ seq) ∧
    (∀ v, v ≠ [] → keyLookup (config_weechat_read_key table keys (some seq) v) seq
        = some (mkBinding table seq v)) := by
  have hread : config_weechat_read_key table keys (some seq) []
      = gui_keyboard_unbind keys seq := by
    rw [config_weechat_read_key]
    simp
  refine ⟨hread, ?_, ?_, ?_, ?_⟩
  · rw [hread]
    exact unbind_lookup keys seq
  · intro h
    rw [hread]
    exact unbind_noop keys seq h
  · intro l hl
    rw [hread] at hl
    obtain ⟨k, hk, hlk⟩ := write_keys_line_keys table _ l hl
    have hne := List.of_mem_filter hk
    simp only [decide_eq_true_eq] at hne
    rw [hlk]
    exact hne
  · intro v hv
    rw [config_weechat_read_key, if_pos hv]
    exact bind_lookup table keys seq v

/-- C6 counterexample: two five-field values whose third field — the size —
is not a syntactically valid base-10 integer, yet the reader creates a
BarDefinition.  `"root;top;;1;[time]"` has an empty size field: strtol
consumes no digits and stores the original pointer in `error`, so
`error[0] == '\0'` passes and a bar of size 0 is created.
`"root;top; 5;1;[time]"` has the size field `" 5"` (leading whitespace, not
an integer numeral): strtol skips the whitespace and a bar of size 5 is
created. -/
theorem bars_reader_empty_size_counterexample :
    ((splitSep ';' (("root;top;;1;[time]").toList)).length = 5 ∧
     (splitSep ';' (("root;top;;1;[time]").toList)).getD 2 [] = [] ∧
     parseIntSpec [] = none ∧
     config_weechat_read_bar [] (some (("mybar").toList)) (("root;top;;1;[time]").toList)
       = [⟨("mybar").toList, ("root").toList, ("top").toList, 0, true, ("[time]").toList⟩]) ∧
    ((splitSep ';' (("root;top; 5;1;[time]").toList)).length = 5 ∧
     (splitSep ';' (("root;top; 5;1;[time]").toList)).getD 2 [] = (" 5").toList ∧
     parseIntSpec ((" 5").toList) = none ∧
     config_weechat_read_bar [] (some (("mybar").toList)) (("root;top; 5;1;[time]").toList)
       = [⟨("mybar").toList, ("root").toList, ("top").toList, 5, true, ("[time]").toList⟩]) := by
  refine ⟨⟨by decide, by decide, by decide, by decide⟩,
          ⟨by decide, by decide, by decide, by decide⟩⟩

/-- C6 amended: a Bars line whose value does not split into exactly five
semicolon-separated fields, or whose size field strtol does not fully
consume, is silently discarded — no record is created, the record set is
unchanged, and the reader has no error channel at all.  (Deviation from the
original claim: strtol also accepts an empty size field, as 0, and
leading-whitespace or signed forms.) -/
theorem bars_reader_malformed_discarded (bars : List BarDef) (name value : CStr)
    (h : (splitSep ';' value).length ≠ 5 ∨
      strtolFull ((splitSep ';' value).getD 2 []) = none) :
    config_weechat_read_bar bars (some name) value = bars := by
  by_cases hv : value = []
  · simp [config_weechat_read_bar, hv]
  · rcases h with h | h
    · simp [config_weechat_read_bar, hv, h]
    · have h' : strtolFull ((splitSep ';' value)[2]?.getD []) = none := by
        rw [← List.getD_eq_getElem?_getD]
        exact h
      simp [config_weechat_read_bar, hv, h']

theorem bars_reader_malformed_discarded_witness :
    (splitSep ';' (("root;top;1;1").toList)).length ≠ 5 ∧
    config_weechat_read_bar [] (some (("mybar").toList)) (("root;top;1;1").toList) = [] := by
  refine ⟨by decide, ?_⟩
  exact bars_reader_malformed_discarded [] (("mybar").toList) (("root;top;1;1").toList)
    (Or.inl (by decide))

/-- C7: for every option with a change callback, `set` invokes the callback
exactly once when validation succeeds (with the new value committed) and zero
times when it fails (with the prior value retained). -/
theorem set_callback_exactness {V : Type} (validate : CStr → Option V)
    (current : V) (raw : CStr) :
    ((config_file_option_set validate current raw).2.1 = SetResult.ok →
      (config_file_option_set validate current raw).2.2 = 1) ∧
    ((config_file_option_set validate current raw).2.1 = SetResult.invalidValue →
      (config_file_option_set validate current raw).2.2 = 0 ∧
      (config_file_option_set validate current raw).1 = current) := by
  rw [config_file_option_set]
  cases validate raw <;> simp

/-- C8: a firing of the day-change timer appends exactly one
"Day changed to ..." notice line — its date text produced by formatting the
current local time with the `day_change_time_format` string — to every buffer
of type formatted, and leaves every other buffer untouched. -/
theorem day_change_firing_notices (fmt : CStr) (strftime : CStr → Nat → CStr)
    (iconv : CStr → Option CStr) (now : Nat) (s : GuiState) :
    (config_day_change_timer_cb fmt strftime iconv now s).buffers
      = s.buffers.map (fun b =>
          if b.btype = BufferType.formated
          then { b with lines := b.lines ++
            [dayChangedLine ((iconv (strftime fmt now)).getD (strftime fmt now))] }
          else b) :=
  dayChangeLoop_buffers false
    (dayChangedLine ((iconv (strftime fmt now)).getD (strftime fmt now)))
    s.buffers s.hotlist

/-- C9: the keys writer emits exactly one line per binding whose value it can
serialize — a resolvable internal function or a literal command — and no line
at all for a binding holding a function pointer with no resolvable name. -/
theorem keys_writer_per_binding_lines (table : FuncTable) (ks : List KeyBinding) :
    config_weechat_write_keys table ks = ks.filterMap (keyLine table) ∧
    ∀ k, (keyLine table k = none ↔ unresolvableFunction table k) := by
  refine ⟨write_keys_eq_filterMap table ks, ?_⟩
  intro k
  constructor
  · intro h
    rcases hf : k.function with _ | f
    · simp [keyLine, hf] at h
    · rcases hp : functionSearchByPtr table f with _ | n
      · exact ⟨f, hf, hp⟩
      · simp [keyLine, hf, hp] at h
  · rintro ⟨f, hf, hp⟩
    simp [keyLine, unresolvableFunction, hf, hp]

/-- C10: the day-change timer callback never adds to the hotlist: hotlist
accumulation is disabled (`gui_add_hotlist = 0`) before the notices are
printed and re-enabled (`gui_add_hotlist = 1`) before returning, so the
hotlist is unchanged across a firing apart from that flag toggle. -/
theorem day_change_hotlist_unchanged (fmt : CStr) (strftime : CStr → Nat → CStr)
    (iconv : CStr → Option CStr) (now : Nat) (s : GuiState) :
    (config_day_change_timer_cb fmt strftime iconv now s).hotlist = s.hotlist ∧
    (config_day_change_timer_cb fmt strftime iconv now s).addHotlist = true :=
  ⟨dayChangeLoop_hotlist_disabled
    (dayChangedLine ((iconv (strftime fmt now)).getD (strftime fmt now)))
    s.buffers s.hotlist, rfl⟩

end WeeConfig
